import Mathlib

/-!
Verification of the quantum-simulator core of the Qiskit-Pennylane-IDE
repository (src/gates.js).

The source represents amplitudes as `{re, im}` records with hand-rolled
complex arithmetic (`Complex.add`, `Complex.multiply`, `Complex.conjugate`,
`Complex.magnitude`); we embed them as Mathlib's `ℂ` and prove below that
the source's component formulas coincide with the field operations of `ℂ`.

The state vector is a JS array of length `2 ^ numQubits`, embedded as a
function `ℕ → ℂ` whose values at indices `≥ 2 ^ numQubits` are irrelevant
(the JS array has no such slots; `reset` and the gate loops only ever touch
indices below `2 ^ numQubits`).  Bit-twiddling such as `(i >> (n-1-q)) & 1`
and `(i & ~(1 << s)) | (b << s)` is translated to division/remainder
arithmetic (`bitAt`, `setAt`), which agrees with the JS 32-bit shifts for
the in-range shift amounts `0 ≤ n-1-q ≤ 31` that every in-range qubit index
produces; the idealization to arbitrary `n` matches the spec's exact-real
reading.  JS out-of-range shift behaviour (shift counts are reduced mod 32)
is modelled separately by `jsShiftAmt`/`jsBitAt` where a claim is about
out-of-range qubit indices.
-/

namespace QSim

/-- Source `Complex.add`: componentwise sum of `{re, im}` records. -/
def cAdd (a b : ℂ) : ℂ := ⟨a.re + b.re, a.im + b.im⟩

/-- Source `Complex.multiply`: `{re: a.re*b.re - a.im*b.im, im: a.re*b.im + a.im*b.re}`. -/
def cMul (a b : ℂ) : ℂ := ⟨a.re * b.re - a.im * b.im, a.re * b.im + a.im * b.re⟩

/-- Source `Complex.conjugate`: `{re: c.re, im: -c.im}`. -/
def cConj (a : ℂ) : ℂ := ⟨a.re, -a.im⟩

/-- Source `Complex.magnitude`: `Math.sqrt(c.re*c.re + c.im*c.im)`. -/
noncomputable def magnitudeJS (a : ℂ) : ℝ := Real.sqrt (a.re * a.re + a.im * a.im)

theorem cAdd_eq (a b : ℂ) : cAdd a b = a + b := by
  apply Complex.ext <;> simp [cAdd]

theorem cMul_eq (a b : ℂ) : cMul a b = a * b := by
  apply Complex.ext <;> simp [cMul, Complex.mul_re, Complex.mul_im]

theorem cConj_eq (a : ℂ) : cConj a = (starRingEnd ℂ) a := by
  apply Complex.ext <;> simp [cConj]

theorem magnitudeJS_mul_self (a : ℂ) :
    magnitudeJS a * magnitudeJS a = Complex.normSq a := by
  rw [magnitudeJS,
    Real.mul_self_sqrt (add_nonneg (mul_self_nonneg _) (mul_self_nonneg _)),
    Complex.normSq_apply]

/-- Bit `s` of a basis index: translates the JS `(i >> s) & 1`. -/
def bitAt (s i : ℕ) : ℕ := i / 2 ^ s % 2

/-- Replace bit `s` of `i` by `b`: translates the JS
`(i & ~(1 << s)) | (b << s)` (clear bit `s`, then OR `b` into it). -/
def setAt (s i b : ℕ) : ℕ := i - bitAt s i * 2 ^ s + b * 2 ^ s

theorem two_pow_pos (s : ℕ) : 0 < 2 ^ s := pow_pos (by norm_num) s

theorem bitAt_lt_two (s i : ℕ) : bitAt s i < 2 := Nat.mod_lt _ (by norm_num)

theorem bitAt_mul_le (s i : ℕ) : bitAt s i * 2 ^ s ≤ i := by
  calc bitAt s i * 2 ^ s ≤ i / 2 ^ s * 2 ^ s :=
        Nat.mul_le_mul_right _ (Nat.mod_le _ _)
    _ ≤ i := Nat.div_mul_le_self i (2 ^ s)

theorem decomp_eq (s i : ℕ) :
    i / 2 ^ (s + 1) * 2 ^ (s + 1) + bitAt s i * 2 ^ s + i % 2 ^ s = i := by
  have h1 := Nat.div_add_mod i (2 ^ s)
  have h2 := Nat.div_add_mod (i / 2 ^ s) 2
  have h3 : i / 2 ^ s / 2 = i / 2 ^ (s + 1) := by
    rw [Nat.div_div_eq_div_mul, pow_succ]
  rw [bitAt, ← h3]
  conv_rhs => rw [← h1, ← h2]
  rw [pow_succ]
  ring

theorem comp_mod (s hi b lo : ℕ) (hlo : lo < 2 ^ s) :
    (hi * 2 ^ (s + 1) + b * 2 ^ s + lo) % 2 ^ s = lo := by
  have h : hi * 2 ^ (s + 1) + b * 2 ^ s + lo = 2 ^ s * (hi * 2 + b) + lo := by
    rw [pow_succ]; ring
  rw [h, Nat.mul_add_mod, Nat.mod_eq_of_lt hlo]

theorem comp_div (s hi b lo : ℕ) (hlo : lo < 2 ^ s) :
    (hi * 2 ^ (s + 1) + b * 2 ^ s + lo) / 2 ^ s = hi * 2 + b := by
  have h : hi * 2 ^ (s + 1) + b * 2 ^ s + lo = 2 ^ s * (hi * 2 + b) + lo := by
    rw [pow_succ]; ring
  rw [h, Nat.mul_add_div (two_pow_pos s), Nat.div_eq_of_lt hlo]
  omega

theorem comp_bitAt (s hi b lo : ℕ) (hb : b < 2) (hlo : lo < 2 ^ s) :
    bitAt s (hi * 2 ^ (s + 1) + b * 2 ^ s + lo) = b := by
  rw [bitAt, comp_div s hi b lo hlo]
  omega

theorem comp_divhi (s hi b lo : ℕ) (hb : b < 2) (hlo : lo < 2 ^ s) :
    (hi * 2 ^ (s + 1) + b * 2 ^ s + lo) / 2 ^ (s + 1) = hi := by
  have h2 : (hi * 2 ^ (s + 1) + b * 2 ^ s + lo) / 2 ^ (s + 1)
      = (hi * 2 ^ (s + 1) + b * 2 ^ s + lo) / 2 ^ s / 2 := by
    rw [Nat.div_div_eq_div_mul, ← pow_succ]
  rw [h2, comp_div s hi b lo hlo]
  omega

theorem comp_setAt (s hi b lo b' : ℕ) (hb : b < 2) (hlo : lo < 2 ^ s) :
    setAt s (hi * 2 ^ (s + 1) + b * 2 ^ s + lo) b' = hi * 2 ^ (s + 1) + b' * 2 ^ s + lo := by
  rw [setAt, comp_bitAt s hi b lo hb hlo]
  generalize hi * 2 ^ (s + 1) = A
  generalize b * 2 ^ s = B at *
  generalize b' * 2 ^ s = B'
  omega

theorem decompose (s i : ℕ) :
    ∃ hi b lo, b < 2 ∧ lo < 2 ^ s ∧ i = hi * 2 ^ (s + 1) + b * 2 ^ s + lo ∧ bitAt s i = b :=
  ⟨i / 2 ^ (s + 1), bitAt s i, i % 2 ^ s, bitAt_lt_two s i,
    Nat.mod_lt _ (two_pow_pos s), (decomp_eq s i).symm, rfl⟩

theorem bitAt_setAt_self (s i b : ℕ) (hb : b < 2) : bitAt s (setAt s i b) = b := by
  obtain ⟨hi, b0, lo, hb0, hlo, hdec, -⟩ := decompose s i
  rw [hdec, comp_setAt s hi b0 lo b hb0 hlo, comp_bitAt s hi b lo hb hlo]

theorem setAt_setAt (s i b b' : ℕ) (hb : b < 2) :
    setAt s (setAt s i b) b' = setAt s i b' := by
  obtain ⟨hi, b0, lo, hb0, hlo, hdec, -⟩ := decompose s i
  rw [hdec, comp_setAt s hi b0 lo b hb0 hlo, comp_setAt s hi b lo b' hb hlo,
    comp_setAt s hi b0 lo b' hb0 hlo]

theorem setAt_bitAt (s i : ℕ) : setAt s i (bitAt s i) = i := by
  obtain ⟨hi, b0, lo, hb0, hlo, hdec, hbit⟩ := decompose s i
  rw [hbit, hdec, comp_setAt s hi b0 lo b0 hb0 hlo]

theorem comp_lt (s n hi b lo : ℕ) (hs : s < n) (hhi : hi < 2 ^ (n - s - 1))
    (hb : b < 2) (hlo : lo < 2 ^ s) : hi * 2 ^ (s + 1) + b * 2 ^ s + lo < 2 ^ n := by
  have hbp : b * 2 ^ s ≤ 2 ^ s := by
    calc b * 2 ^ s ≤ 1 * 2 ^ s := Nat.mul_le_mul_right _ (by omega)
      _ = 2 ^ s := one_mul _
  have hlow : b * 2 ^ s + lo < 2 ^ (s + 1) := by
    rw [pow_succ]; omega
  have hstep : hi * 2 ^ (s + 1) + (b * 2 ^ s + lo) < (hi + 1) * 2 ^ (s + 1) := by
    have := two_pow_pos (s + 1); nlinarith
  have hfin : (hi + 1) * 2 ^ (s + 1) ≤ 2 ^ n := by
    calc (hi + 1) * 2 ^ (s + 1) ≤ 2 ^ (n - s - 1) * 2 ^ (s + 1) :=
          Nat.mul_le_mul_right _ (by omega)
      _ = 2 ^ n := by rw [← pow_add]; congr 1; omega
  omega

theorem div_hi_lt (s n i : ℕ) (hs : s < n) (hi : i < 2 ^ n) :
    i / 2 ^ (s + 1) < 2 ^ (n - s - 1) := by
  rw [Nat.div_lt_iff_lt_mul (two_pow_pos (s + 1)), ← pow_add]
  have h : n - s - 1 + (s + 1) = n := by omega
  rw [h]; exact hi

theorem setAt_lt (s n i b : ℕ) (hs : s < n) (hi : i < 2 ^ n) (hb : b < 2) :
    setAt s i b < 2 ^ n := by
  obtain ⟨h0, b0, lo, hb0, hlo, hdec, -⟩ := decompose s i
  have hh0 : h0 = i / 2 ^ (s + 1) := by
    rw [hdec, comp_divhi s h0 b0 lo hb0 hlo]
  rw [hdec, comp_setAt s h0 b0 lo b hb0 hlo]
  exact comp_lt s n h0 b lo hs (hh0 ▸ div_hi_lt s n i hs hi) hb hlo

theorem bitAt_add_mul (s c y : ℕ) : bitAt s (2 ^ (s + 1) * c + y) = bitAt s y := by
  have h : 2 ^ (s + 1) * c + y = 2 ^ s * (2 * c) + y := by rw [pow_succ]; ring
  rw [bitAt, bitAt, h, Nat.mul_add_div (two_pow_pos s)]
  omega

theorem setAt_add_mul (s c y b : ℕ) :
    setAt s (2 ^ (s + 1) * c + y) b = 2 ^ (s + 1) * c + setAt s y b := by
  rw [setAt, setAt, bitAt_add_mul]
  have hy := bitAt_mul_le s y
  generalize bitAt s y * 2 ^ s = B at *
  generalize b * 2 ^ s = B'
  generalize 2 ^ (s + 1) * c = H
  omega

theorem bitAt_setAt_ne (s s' i b : ℕ) (hss : s ≠ s') (hb : b < 2) :
    bitAt s' (setAt s i b) = bitAt s' i := by
  rcases Nat.lt_or_ge s' s with hlt | hge
  · -- reading strictly below the modified bit
    obtain ⟨hi, b0, lo, hb0, hlo, hdec, -⟩ := decompose s i
    have hd : 2 ^ (s' + 1) ∣ hi * 2 ^ (s + 1) + b0 * 2 ^ s := by
      apply dvd_add
      · exact Dvd.dvd.mul_left (pow_dvd_pow 2 (by omega)) hi
      · exact Dvd.dvd.mul_left (pow_dvd_pow 2 (by omega)) b0
    obtain ⟨c, hc⟩ := hd
    have hd' : 2 ^ (s' + 1) ∣ hi * 2 ^ (s + 1) + b * 2 ^ s := by
      apply dvd_add
      · exact Dvd.dvd.mul_left (pow_dvd_pow 2 (by omega)) hi
      · exact Dvd.dvd.mul_left (pow_dvd_pow 2 (by omega)) b
    obtain ⟨c', hc'⟩ := hd'
    rw [hdec, comp_setAt s hi b0 lo b hb0 hlo]
    have h1 : hi * 2 ^ (s + 1) + b0 * 2 ^ s + lo = 2 ^ (s' + 1) * c + lo := by omega
    have h2 : hi * 2 ^ (s + 1) + b * 2 ^ s + lo = 2 ^ (s' + 1) * c' + lo := by omega
    rw [h1, h2, bitAt_add_mul, bitAt_add_mul]
  · -- reading strictly above the modified bit
    have hgt : s < s' := by omega
    obtain ⟨HI, B, LO, hB, hLO, hdec, hbit⟩ := decompose s' i
    have hd : 2 ^ (s + 1) ∣ HI * 2 ^ (s' + 1) + B * 2 ^ s' := by
      apply dvd_add
      · exact Dvd.dvd.mul_left (pow_dvd_pow 2 (by omega)) HI
      · exact Dvd.dvd.mul_left (pow_dvd_pow 2 (by omega)) B
    obtain ⟨c, hc⟩ := hd
    have h1 : i = 2 ^ (s + 1) * c + LO := by omega
    have h2 : setAt s i b = HI * 2 ^ (s' + 1) + B * 2 ^ s' + setAt s LO b := by
      rw [h1, setAt_add_mul]; omega
    rw [h2, comp_bitAt s' HI B (setAt s LO b) hB (setAt_lt s s' LO b hgt hLO hb), hbit]

theorem eq_of_bitAt_eq (x y : ℕ) (h : ∀ s, bitAt s x = bitAt s y) : x = y := by
  apply Nat.eq_of_testBit_eq
  intro s
  have hs := h s
  rw [bitAt, bitAt] at hs
  rw [Nat.testBit_to_div_mod, Nat.testBit_to_div_mod, hs]

/-- Bit of qubit `q` in index `i`: the JS `(i >> (numQubits - 1 - q)) & 1`
(qubit 0 is the most significant bit). -/
def bitOf (n q i : ℕ) : ℕ := bitAt (n - 1 - q) i

/-- Index `i` with qubit `q`'s bit replaced by `b`: the JS
`(i & ~(1 << (n - 1 - q))) | (b << (n - 1 - q))`. -/
def setBitOf (n q i b : ℕ) : ℕ := setAt (n - 1 - q) i b

theorem bitOf_lt_two (n q i : ℕ) : bitOf n q i < 2 := bitAt_lt_two _ i

theorem setBitOf_lt (n q i b : ℕ) (hq : q < n) (hi : i < 2 ^ n) (hb : b < 2) :
    setBitOf n q i b < 2 ^ n := setAt_lt _ n i b (by omega) hi hb

theorem pos_ne_pos (n a b : ℕ) (ha : a < n) (hb : b < n) (hab : a ≠ b) :
    n - 1 - a ≠ n - 1 - b := by omega

/-- The index the CNOT loop swaps basis index `i` with: qubit `t`'s bit flipped
(`newTargetBit = 1 - targetBit`). -/
def flipTarget (n t i : ℕ) : ℕ := setBitOf n t i (1 - bitOf n t i)

theorem bitOf_flipTarget_self (n t i : ℕ) :
    bitOf n t (flipTarget n t i) = 1 - bitOf n t i :=
  bitAt_setAt_self _ i _ (by have := bitOf_lt_two n t i; omega)

theorem flipTarget_ne (n t i : ℕ) : flipTarget n t i ≠ i := by
  intro h
  have h1 := bitOf_flipTarget_self n t i
  rw [h] at h1
  have := bitOf_lt_two n t i
  omega

theorem flipTarget_flipTarget (n t i : ℕ) :
    flipTarget n t (flipTarget n t i) = i := by
  have hb := bitOf_lt_two n t i
  rw [flipTarget, bitOf_flipTarget_self n t i]
  have h1 : 1 - (1 - bitOf n t i) = bitOf n t i := by omega
  rw [h1, flipTarget, setBitOf, setBitOf, setAt_setAt _ i _ _ (by omega)]
  exact setAt_bitAt _ i

theorem bitOf_flipTarget_ne (n c t i : ℕ) (hc : c < n) (ht : t < n) (hct : c ≠ t) :
    bitOf n c (flipTarget n t i) = bitOf n c i :=
  bitAt_setAt_ne _ _ i _ (pos_ne_pos n t c ht hc (Ne.symm hct))
    (by have := bitOf_lt_two n t i; omega)

theorem flipTarget_lt (n t i : ℕ) (ht : t < n) (hi : i < 2 ^ n) :
    flipTarget n t i < 2 ^ n :=
  setBitOf_lt n t i _ ht hi (by have := bitOf_lt_two n t i; omega)

/-- The destination index computed by the SWAP loop: qubit `a`'s bit replaced by
qubit `b`'s original bit, then qubit `b`'s bit replaced by qubit `a`'s original
bit (the source computes `bit1`, `bit2` before modifying `newIndex`). -/
def swapIdx (n a b i : ℕ) : ℕ :=
  setBitOf n b (setBitOf n a i (bitOf n b i)) (bitOf n a i)

theorem bitOf_swapIdx_fst (n a b i : ℕ) (ha : a < n) (hb : b < n) (hab : a ≠ b) :
    bitOf n a (swapIdx n a b i) = bitOf n b i := by
  rw [swapIdx, setBitOf, setBitOf, bitOf,
    bitAt_setAt_ne _ _ _ _ (pos_ne_pos n b a hb ha (Ne.symm hab))
      (by have := bitOf_lt_two n a i; omega)]
  exact bitAt_setAt_self _ i _ (by have := bitOf_lt_two n b i; omega)

theorem bitOf_swapIdx_snd (n a b i : ℕ) :
    bitOf n b (swapIdx n a b i) = bitOf n a i :=
  bitAt_setAt_self _ _ _ (by have := bitOf_lt_two n a i; omega)

theorem bitAt_swapIdx_other (n a b i s : ℕ) (hsa : s ≠ n - 1 - a) (hsb : s ≠ n - 1 - b) :
    bitAt s (swapIdx n a b i) = bitAt s i := by
  rw [swapIdx, setBitOf, setBitOf,
    bitAt_setAt_ne _ _ _ _ (Ne.symm hsb) (by have := bitOf_lt_two n a i; omega),
    bitAt_setAt_ne _ _ _ _ (Ne.symm hsa) (by have := bitOf_lt_two n b i; omega)]

theorem swapIdx_lt (n a b i : ℕ) (ha : a < n) (hb : b < n) (hi : i < 2 ^ n) :
    swapIdx n a b i < 2 ^ n :=
  setBitOf_lt n b _ _ hb
    (setBitOf_lt n a i _ ha hi (by have := bitOf_lt_two n b i; omega))
    (by have := bitOf_lt_two n a i; omega)

theorem swapIdx_swapIdx (n a b i : ℕ) (ha : a < n) (hb : b < n) (hab : a ≠ b) :
    swapIdx n a b (swapIdx n a b i) = i := by
  apply eq_of_bitAt_eq
  intro s
  by_cases hsa : s = n - 1 - a
  · subst hsa
    have h1 : bitAt (n - 1 - a) (swapIdx n a b (swapIdx n a b i))
        = bitOf n b (swapIdx n a b i) := bitOf_swapIdx_fst n a b _ ha hb hab
    rw [h1, bitOf_swapIdx_snd]
    rfl
  · by_cases hsb : s = n - 1 - b
    · subst hsb
      have h1 : bitAt (n - 1 - b) (swapIdx n a b (swapIdx n a b i))
          = bitOf n a (swapIdx n a b i) := bitOf_swapIdx_snd n a b _
      rw [h1, bitOf_swapIdx_fst n a b i ha hb hab]
      rfl
    · rw [bitAt_swapIdx_other n a b _ s hsa hsb, bitAt_swapIdx_other n a b i s hsa hsb]

/-- A 2×2 complex matrix, as stored in the source's `GATES[...].matrix`
(row-major `[[e00, e01], [e10, e11]]`). -/
structure Mat2 where
  e00 : ℂ
  e01 : ℂ
  e10 : ℂ
  e11 : ℂ

/-- Row/column access `matrix[r][c]` (rows and columns are 0 or 1). -/
def Mat2.entry (m : Mat2) (r c : ℕ) : ℂ :=
  if r = 0 then (if c = 0 then m.e00 else m.e01)
  else (if c = 0 then m.e10 else m.e11)

/-- Source `GATES.H.matrix`: `[[1/√2, 1/√2], [1/√2, -1/√2]]`. -/
noncomputable def Hmat : Mat2 :=
  ⟨((1 / Real.sqrt 2 : ℝ) : ℂ), ((1 / Real.sqrt 2 : ℝ) : ℂ),
    ((1 / Real.sqrt 2 : ℝ) : ℂ), ((-(1 / Real.sqrt 2) : ℝ) : ℂ)⟩

/-- Source `GATES.X.matrix`: `[[0, 1], [1, 0]]`. -/
def Xmat : Mat2 := ⟨0, 1, 1, 0⟩

/-- Source `GATES.Y.matrix`: `[[0, -i], [i, 0]]`. -/
def Ymat : Mat2 := ⟨0, ⟨0, -1⟩, ⟨0, 1⟩, 0⟩

/-- Source `GATES.Z.matrix`: `[[1, 0], [0, -1]]`. -/
def Zmat : Mat2 := ⟨1, 0, 0, -1⟩

/-- Source `GATES.S.matrix`: `[[1, 0], [0, i]]`. -/
def Smat : Mat2 := ⟨1, 0, 0, ⟨0, 1⟩⟩

/-- Source `GATES.T.matrix`: `[[1, 0], [0, cos(π/4) + i·sin(π/4)]]`. -/
noncomputable def Tmat : Mat2 :=
  ⟨1, 0, 0, ⟨Real.cos (Real.pi / 4), Real.sin (Real.pi / 4)⟩⟩

/-- Source `GATES.RX.getMatrix(θ)`:
`[[cos(θ/2), -i·sin(θ/2)], [-i·sin(θ/2), cos(θ/2)]]`. -/
noncomputable def RXmat (θ : ℝ) : Mat2 :=
  ⟨((Real.cos (θ / 2) : ℝ) : ℂ), ⟨0, -Real.sin (θ / 2)⟩,
    ⟨0, -Real.sin (θ / 2)⟩, ((Real.cos (θ / 2) : ℝ) : ℂ)⟩

/-- Source `GATES.RY.getMatrix(θ)`:
`[[cos(θ/2), -sin(θ/2)], [sin(θ/2), cos(θ/2)]]`. -/
noncomputable def RYmat (θ : ℝ) : Mat2 :=
  ⟨((Real.cos (θ / 2) : ℝ) : ℂ), ((-Real.sin (θ / 2) : ℝ) : ℂ),
    ((Real.sin (θ / 2) : ℝ) : ℂ), ((Real.cos (θ / 2) : ℝ) : ℂ)⟩

/-- Source `GATES.RZ.getMatrix(θ)`:
`[[cos(θ/2) - i·sin(θ/2), 0], [0, cos(θ/2) + i·sin(θ/2)]]`. -/
noncomputable def RZmat (θ : ℝ) : Mat2 :=
  ⟨⟨Real.cos (θ / 2), -Real.sin (θ / 2)⟩, 0, 0,
    ⟨Real.cos (θ / 2), Real.sin (θ / 2)⟩⟩

/-- The `type` field of `GATES[name]`; `none` when `name` is not a key of the
`GATES` object (JS: `GATES[gateName]` is `undefined`). -/
def GATES_type : String → Option String
  | "H" | "X" | "Y" | "Z" | "S" | "T" => some "single"
  | "RX" | "RY" | "RZ" => some "rotation"
  | "CNOT" | "CZ" => some "controlled"
  | "SWAP" => some "swap"
  | "M" => some "measure"
  | _ => none

/-- The 2×2 `matrix` field of `GATES[name]`.  The measurement entry `M` has no
matrix; the 4×4 matrices stored on `CNOT`/`CZ`/`SWAP` are not 2×2 and are never
used by `applySingleQubitGate` in any verified claim, so they are not
represented here. -/
noncomputable def GATES_matrix : String → Option Mat2
  | "H" => some Hmat
  | "X" => some Xmat
  | "Y" => some Ymat
  | "Z" => some Zmat
  | "S" => some Smat
  | "T" => some Tmat
  | _ => none

/-- The `getMatrix` field of `GATES[name]` (rotation gates only). -/
noncomputable def GATES_getMatrix : String → Option (ℝ → Mat2)
  | "RX" => some RXmat
  | "RY" => some RYmat
  | "RZ" => some RZmat
  | _ => none

/-- The keys of the `GATES` object / the cases of the `applyGate` switch. -/
def supportedGateNames : List String :=
  ["H", "X", "Y", "Z", "S", "T", "RX", "RY", "RZ", "CNOT", "CZ", "SWAP", "M"]

/-- Source `QuantumSimulator.reset`: the state vector `|0...0⟩`, amplitude 1 at
index 0 and 0 elsewhere.  (Indices `≥ 2^numQubits` do not exist in the JS
array; the embedding extends by 0.) -/
def reset (n : ℕ) : ℕ → ℂ := fun i => if i = 0 then 1 else 0

/-- Source `QuantumSimulator.getProbabilities`: maps each amplitude to
`mag * mag` with `mag = Complex.magnitude(c)`. -/
noncomputable def getProbabilities (n : ℕ) (st : ℕ → ℂ) : List ℝ :=
  (List.range (2 ^ n)).map fun i => magnitudeJS (st i) * magnitudeJS (st i)

/-- The scatter-accumulate loop of `applySingleQubitGate`: starting from a
zero-filled `newState`, for every basis index `i` and both values `nb` of the
target qubit's new bit, `newState[newIndex] += matrix[nb][bit] * state[i]`
with `newIndex = setBitOf n q i nb`.  Since the writes accumulate with `+`
into an all-zero vector, entry `k` of the result is exactly the sum of the
contributions whose `newIndex` equals `k`. -/
noncomputable def applyMatrix (n q : ℕ) (m : Mat2) (st : ℕ → ℂ) : ℕ → ℂ := fun k =>
  ∑ i ∈ Finset.range (2 ^ n), ∑ nb ∈ Finset.range 2,
    if setBitOf n q i nb = k then cMul (m.entry nb (bitOf n q i)) (st i) else 0

/-- Source `QuantumSimulator.applySingleQubitGate`.  An unknown gate name logs
`console.error` and aborts (embedded as `.error`); a rotation gate builds its
matrix from `params.theta || 0` (for real `theta`, `theta || 0` is `theta`
unless `theta` is 0, so it is `Option.getD 0`); a gate record without a 2×2
`matrix` returns silently leaving the state unchanged (`if (!matrix) return`).
Otherwise the matrix is applied by the scatter loop `applyMatrix`. -/
noncomputable def applySingleQubitGate (n : ℕ) (gateName : String) (qubitIndex : ℕ)
    (params : Option ℝ) (st : ℕ → ℂ) : Except String (ℕ → ℂ) :=
  match GATES_type gateName with
  | none => .error ("Unknown gate: " ++ gateName)
  | some ty =>
    let matrix : Option Mat2 :=
      if ty = "rotation" then
        match GATES_getMatrix gateName with
        | some getMatrix => some (getMatrix (params.getD 0))
        | none => none
      else GATES_matrix gateName
    match matrix with
    | none => .ok st
    | some m => .ok (applyMatrix n qubitIndex m st)

/-- One iteration of the `applyCNOT` loop: when the control bit of `i` is 1,
the entries of `newState` at `i` and at `newIndex = flipTarget n t i` are
swapped via `temp`/assign/assign (the write to `newIndex` lands last);
otherwise `newState` is untouched. -/
noncomputable def cnotStep (n c t : ℕ) (newState : ℕ → ℂ) (i : ℕ) : ℕ → ℂ :=
  if bitOf n c i = 1 then
    fun k =>
      if k = flipTarget n t i then newState i
      else if k = i then newState (flipTarget n t i)
      else newState k
  else newState

/-- Source `QuantumSimulator.applyCNOT`: `newState` starts as a copy of the
state vector; then the loop runs `cnotStep` for every basis index `i` in
increasing order. -/
noncomputable def applyCNOT (n c t : ℕ) (st : ℕ → ℂ) : ℕ → ℂ :=
  (List.range (2 ^ n)).foldl (cnotStep n c t) st

/-- Source `QuantumSimulator.applyCZ`: in place, each amplitude whose control
and target bits are both 1 is multiplied by `Complex.create(-1, 0)`. -/
noncomputable def applyCZ (n c t : ℕ) (st : ℕ → ℂ) : ℕ → ℂ := fun i =>
  if bitOf n c i = 1 ∧ bitOf n t i = 1 then cMul (st i) ⟨-1, 0⟩ else st i

/-- Source `QuantumSimulator.applySWAP`: `newState` starts zero-filled; for
every index `i`, `newState[newIndex] = {...stateVector[i]}` with `newIndex`
the index with the two qubits' bits exchanged. -/
noncomputable def applySWAP (n a b : ℕ) (st : ℕ → ℂ) : ℕ → ℂ :=
  (List.range (2 ^ n)).foldl
    (fun newState i => Function.update newState (swapIdx n a b i) (st i))
    (fun _ => 0)

/-- A gate-operation record `{gate, qubit, targetQubit, params}` as consumed by
`applyGate` (the `position` scheduling key only orders the sequence and is
handled by the caller supplying the operations in order). -/
structure GateOp where
  gate : String
  qubit : ℕ
  targetQubit : ℕ
  params : Option ℝ

/-- Source `QuantumSimulator.applyGate`: the `switch` dispatch.  Fixed
single-qubit gates forward without params, rotations forward `params`,
`CNOT`/`CZ`/`SWAP` use their structural loops, `M` is a no-op, and the
`default` branch logs `console.warn` and applies nothing (embedded as
`.error`). -/
noncomputable def applyGate (n : ℕ) (op : GateOp) (st : ℕ → ℂ) : Except String (ℕ → ℂ) :=
  match op.gate with
  | "H" | "X" | "Y" | "Z" | "S" | "T" => applySingleQubitGate n op.gate op.qubit none st
  | "RX" | "RY" | "RZ" => applySingleQubitGate n op.gate op.qubit op.params st
  | "CNOT" => .ok (applyCNOT n op.qubit op.targetQubit st)
  | "CZ" => .ok (applyCZ n op.qubit op.targetQubit st)
  | "SWAP" => .ok (applySWAP n op.qubit op.targetQubit st)
  | "M" => .ok st
  | _ => .error ("Unknown gate: " ++ op.gate)

/-- Apply a sequence of gate operations in order (the caller has already
sorted by `position`). -/
noncomputable def runOps (n : ℕ) (ops : List GateOp) (st : ℕ → ℂ) :
    Except String (ℕ → ℂ) :=
  ops.foldlM (fun s op => applyGate n op s) st

/-- The cumulative-selection loop of `QuantumSimulator.measure`:
`cumulative += probs[i]; if (rand <= cumulative) return i`.  Returns the
selected index, or `none` when the loop falls through. -/
noncomputable def measureLoop (probs : List ℝ) (rand cumulative : ℝ) (idx : ℕ) : Option ℕ :=
  match probs with
  | [] => none
  | p :: rest =>
    if rand ≤ cumulative + p then some idx
    else measureLoop rest rand (cumulative + p) (idx + 1)

/-- The fixed-width binary string `i.toString(2).padStart(numQubits, '0')`,
embedded as the list of its bits, most significant first. -/
def toBits (n i : ℕ) : List ℕ := (List.range n).map fun k => bitAt (n - 1 - k) i

/-- Source `QuantumSimulator.measure`: one weighted draw with uniform `rand`;
on fall-through the fallback returns `'0'.repeat(numQubits)`. -/
noncomputable def measure (n : ℕ) (st : ℕ → ℂ) (rand : ℝ) : List ℕ :=
  match measureLoop (getProbabilities n st) rand 0 0 with
  | some i => toBits n i
  | none => List.replicate n 0

/-- JS `<<`/`>>` reduce the shift count modulo 32 (after conversion to a
32-bit integer); for the negative shift `n - 1 - q` produced by an
out-of-range qubit index `q > n - 1` this gives shift amount 31. -/
def jsShiftAmt (k : ℤ) : ℕ := (k % 32).toNat

/-- The JS `(i >> (n - 1 - q)) & 1` with 32-bit shift semantics, valid for
`0 ≤ i < 2^31` (every index of a JS state-vector array). -/
def jsBitOf (n : ℕ) (q : ℤ) (i : ℕ) : ℕ := i / 2 ^ jsShiftAmt ((n : ℤ) - 1 - q) % 2

/-- Source `QuantumSimulator.applyCZ` again, but with the qubit arguments as
JS numbers and the shift computed with 32-bit semantics (`jsBitOf`), so that
out-of-range qubit indices can be evaluated exactly as the JS engine does. -/
noncomputable def applyCZjs (n : ℕ) (c t : ℤ) (st : ℕ → ℂ) : ℕ → ℂ := fun i =>
  if jsBitOf n c i = 1 ∧ jsBitOf n t i = 1 then cMul (st i) ⟨-1, 0⟩ else st i

theorem bitOf_setBitOf (n q i b : ℕ) (hb : b < 2) :
    bitOf n q (setBitOf n q i b) = b := bitAt_setAt_self _ i b hb

theorem setBitOf_setBitOf (n q i b b' : ℕ) (hb : b < 2) :
    setBitOf n q (setBitOf n q i b) b' = setBitOf n q i b' := setAt_setAt _ i b b' hb

theorem setBitOf_bitOf (n q i : ℕ) : setBitOf n q i (bitOf n q i) = i := setAt_bitAt _ i

theorem setBitOf_zero_ne_one (n q k : ℕ) : setBitOf n q k 0 ≠ setBitOf n q k 1 := by
  intro h
  have h0 := bitOf_setBitOf n q k 0 (by omega)
  have h1 := bitOf_setBitOf n q k 1 (by omega)
  rw [h] at h0
  omega

theorem sum_filter_setBit (n q k nb : ℕ) (hq : q < n) (hk : k < 2 ^ n)
    (hnb : nb < 2) (f : ℕ → ℂ) :
    (∑ i ∈ Finset.range (2 ^ n), if setBitOf n q i nb = k then f i else 0)
      = if bitOf n q k = nb then f (setBitOf n q k 0) + f (setBitOf n q k 1) else 0 := by
  by_cases hbk : bitOf n q k = nb
  · rw [if_pos hbk]
    have hsub : ({setBitOf n q k 0, setBitOf n q k 1} : Finset ℕ) ⊆ Finset.range (2 ^ n) := by
      intro x hx
      rcases Finset.mem_insert.mp hx with h | h
      · rw [h]; exact Finset.mem_range.mpr (setBitOf_lt n q k 0 hq hk (by omega))
      · rw [Finset.mem_singleton.mp h]
        exact Finset.mem_range.mpr (setBitOf_lt n q k 1 hq hk (by omega))
    have hvanish : ∀ x ∈ Finset.range (2 ^ n),
        x ∉ ({setBitOf n q k 0, setBitOf n q k 1} : Finset ℕ) →
        (if setBitOf n q x nb = k then f x else 0) = 0 := by
      intro x _ hx
      rw [if_neg]
      intro h
      apply hx
      have hxk : x = setBitOf n q k (bitOf n q x) := by
        rw [← h, setBitOf_setBitOf n q x nb _ hnb, setBitOf_bitOf]
      have hbx := bitOf_lt_two n q x
      rcases (by omega : bitOf n q x = 0 ∨ bitOf n q x = 1) with h0 | h0
      · rw [h0] at hxk; exact Finset.mem_insert.mpr (Or.inl hxk)
      · rw [h0] at hxk
        exact Finset.mem_insert.mpr (Or.inr (Finset.mem_singleton.mpr hxk))
    rw [← Finset.sum_subset hsub hvanish,
      Finset.sum_pair (setBitOf_zero_ne_one n q k)]
    have hc0 : setBitOf n q (setBitOf n q k 0) nb = k := by
      rw [setBitOf_setBitOf n q k 0 nb (by omega), ← hbk, setBitOf_bitOf]
    have hc1 : setBitOf n q (setBitOf n q k 1) nb = k := by
      rw [setBitOf_setBitOf n q k 1 nb (by omega), ← hbk, setBitOf_bitOf]
    rw [if_pos hc0, if_pos hc1]
  · rw [if_neg hbk]
    apply Finset.sum_eq_zero
    intro x _
    rw [if_neg]
    intro h
    apply hbk
    rw [← h, bitOf_setBitOf n q x nb hnb]

/-- Closed form of the scatter loop: entry `k` of the new state receives the
two contributions whose destination is `k`, i.e. a standard one-qubit
matrix-vector action on the pair of indices agreeing with `k` off qubit `q`. -/
theorem applyMatrix_apply (n q : ℕ) (m : Mat2) (st : ℕ → ℂ) (hq : q < n)
    (k : ℕ) (hk : k < 2 ^ n) :
    applyMatrix n q m st k
      = m.entry (bitOf n q k) 0 * st (setBitOf n q k 0)
        + m.entry (bitOf n q k) 1 * st (setBitOf n q k 1) := by
  have hexp : ∀ i : ℕ,
      (∑ nb ∈ Finset.range 2,
        if setBitOf n q i nb = k then cMul (m.entry nb (bitOf n q i)) (st i) else 0)
        = (if setBitOf n q i 0 = k then cMul (m.entry 0 (bitOf n q i)) (st i) else 0)
          + (if setBitOf n q i 1 = k then cMul (m.entry 1 (bitOf n q i)) (st i) else 0) := by
    intro i
    rw [Finset.sum_range_succ, Finset.sum_range_one]
  rw [applyMatrix, Finset.sum_congr rfl (fun i _ => hexp i), Finset.sum_add_distrib,
    sum_filter_setBit n q k 0 hq hk (by omega) _,
    sum_filter_setBit n q k 1 hq hk (by omega) _]
  have hb := bitOf_lt_two n q k
  rcases (by omega : bitOf n q k = 0 ∨ bitOf n q k = 1) with h | h <;>
    rw [h] <;>
    simp only [if_pos, if_neg, one_ne_zero, zero_ne_one, if_true, if_false, reduceIte,
      add_zero, zero_add] <;>
    rw [cMul_eq, cMul_eq, bitOf_setBitOf n q k 0 (by omega),
      bitOf_setBitOf n q k 1 (by omega)]

/-- A 2×2 matrix preserves the summed squared magnitude of every amplitude
pair (the property shared by all the source's single-qubit gate matrices). -/
def pairNorm (m : Mat2) : Prop := ∀ a b : ℂ,
  Complex.normSq (m.e00 * a + m.e01 * b) + Complex.normSq (m.e10 * a + m.e11 * b)
    = Complex.normSq a + Complex.normSq b

theorem pairNorm_of (m : Mat2)
    (h1 : Complex.normSq m.e00 + Complex.normSq m.e10 = 1)
    (h2 : Complex.normSq m.e01 + Complex.normSq m.e11 = 1)
    (h3 : m.e00 * (starRingEnd ℂ) m.e01 + m.e10 * (starRingEnd ℂ) m.e11 = 0) :
    pairNorm m := by
  intro a b
  have key : (m.e00 * a * (starRingEnd ℂ) (m.e01 * b)).re
      + (m.e10 * a * (starRingEnd ℂ) (m.e11 * b)).re = 0 := by
    rw [← Complex.add_re]
    have hh : m.e00 * a * (starRingEnd ℂ) (m.e01 * b)
        + m.e10 * a * (starRingEnd ℂ) (m.e11 * b)
        = (m.e00 * (starRingEnd ℂ) m.e01 + m.e10 * (starRingEnd ℂ) m.e11)
          * (a * (starRingEnd ℂ) b) := by
      rw [map_mul, map_mul]; ring
    rw [hh, h3, zero_mul, Complex.zero_re]
  rw [Complex.normSq_add, Complex.normSq_add, Complex.normSq_mul, Complex.normSq_mul,
    Complex.normSq_mul, Complex.normSq_mul]
  linear_combination Complex.normSq a * h1 + Complex.normSq b * h2 + 2 * key

theorem sqrt_two_sq : Real.sqrt 2 * Real.sqrt 2 = 2 :=
  Real.mul_self_sqrt (by norm_num)

theorem pairNorm_H : pairNorm Hmat := by
  apply pairNorm_of
  · rw [Hmat]
    simp only [Complex.normSq_ofReal]
    have h := sqrt_two_sq
    have hpos : (0 : ℝ) < Real.sqrt 2 := Real.sqrt_pos.mpr (by norm_num)
    field_simp
  · rw [Hmat]
    simp only [Complex.normSq_ofReal]
    have h := sqrt_two_sq
    have hpos : (0 : ℝ) < Real.sqrt 2 := Real.sqrt_pos.mpr (by norm_num)
    field_simp
  · rw [Hmat]
    simp only [Complex.conj_ofReal]
    push_cast
    ring

theorem pairNorm_X : pairNorm Xmat := by
  apply pairNorm_of <;> simp [Xmat]

theorem pairNorm_Y : pairNorm Ymat := by
  apply pairNorm_of <;> simp [Ymat, Complex.normSq_mk]

theorem pairNorm_Z : pairNorm Zmat := by
  apply pairNorm_of <;> simp [Zmat]

theorem pairNorm_S : pairNorm Smat := by
  apply pairNorm_of <;> simp [Smat, Complex.normSq_mk]

theorem pairNorm_T : pairNorm Tmat := by
  apply pairNorm_of
  · simp [Tmat]
  · rw [Tmat]
    simp only [Complex.normSq_mk, Complex.normSq_zero]
    nlinarith [Real.sin_sq_add_cos_sq (Real.pi / 4)]
  · simp [Tmat]

theorem pairNorm_RX (θ : ℝ) : pairNorm (RXmat θ) := by
  apply pairNorm_of
  · rw [RXmat]
    simp only [Complex.normSq_ofReal, Complex.normSq_mk]
    nlinarith [Real.sin_sq_add_cos_sq (θ / 2)]
  · rw [RXmat]
    simp only [Complex.normSq_ofReal, Complex.normSq_mk]
    nlinarith [Real.sin_sq_add_cos_sq (θ / 2)]
  · rw [RXmat]
    apply Complex.ext <;>
      simp only [Complex.add_re, Complex.add_im, Complex.mul_re, Complex.mul_im,
        Complex.conj_re, Complex.conj_im, Complex.ofReal_re, Complex.ofReal_im,
        Complex.zero_re, Complex.zero_im] <;>
      ring

theorem pairNorm_RY (θ : ℝ) : pairNorm (RYmat θ) := by
  apply pairNorm_of
  · rw [RYmat]
    simp only [Complex.normSq_ofReal]
    nlinarith [Real.sin_sq_add_cos_sq (θ / 2)]
  · rw [RYmat]
    simp only [Complex.normSq_ofReal]
    nlinarith [Real.sin_sq_add_cos_sq (θ / 2)]
  · rw [RYmat]
    simp only [Complex.conj_ofReal]
    push_cast
    ring

theorem pairNorm_RZ (θ : ℝ) : pairNorm (RZmat θ) := by
  apply pairNorm_of
  · rw [RZmat]
    simp only [Complex.normSq_mk, Complex.normSq_zero]
    nlinarith [Real.sin_sq_add_cos_sq (θ / 2)]
  · rw [RZmat]
    simp only [Complex.normSq_mk, Complex.normSq_zero]
    nlinarith [Real.sin_sq_add_cos_sq (θ / 2)]
  · simp [RZmat]

theorem Mat2.entry_00 (m : Mat2) : m.entry 0 0 = m.e00 := rfl

theorem Mat2.entry_01 (m : Mat2) : m.entry 0 1 = m.e01 := rfl

theorem Mat2.entry_10 (m : Mat2) : m.entry 1 0 = m.e10 := rfl

theorem Mat2.entry_11 (m : Mat2) : m.entry 1 1 = m.e11 := rfl

theorem sum_bit_split (n q : ℕ) (hq : q < n) (f : ℕ → ℝ) :
    ∑ k ∈ Finset.range (2 ^ n), f k
      = ∑ j ∈ (Finset.range (2 ^ n)).filter (fun j => bitOf n q j = 0),
          (f j + f (setBitOf n q j 1)) := by
  rw [← Finset.sum_filter_add_sum_filter_not (Finset.range (2 ^ n))
    (fun j => bitOf n q j = 0) f, Finset.sum_add_distrib]
  congr 1
  apply Finset.sum_bij' (fun k _ => setBitOf n q k 0) (fun j _ => setBitOf n q j 1)
  · intro a ha
    obtain ⟨har, hab⟩ := Finset.mem_filter.mp ha
    refine Finset.mem_filter.mpr ⟨Finset.mem_range.mpr
      (setBitOf_lt n q a 0 hq (Finset.mem_range.mp har) (by omega)), ?_⟩
    exact bitOf_setBitOf n q a 0 (by omega)
  · intro a ha
    obtain ⟨har, hab⟩ := Finset.mem_filter.mp ha
    refine Finset.mem_filter.mpr ⟨Finset.mem_range.mpr
      (setBitOf_lt n q a 1 hq (Finset.mem_range.mp har) (by omega)), ?_⟩
    simp only [bitOf_setBitOf n q a 1 (by omega)]
    omega
  · intro a ha
    obtain ⟨-, hab⟩ := Finset.mem_filter.mp ha
    have hba := bitOf_lt_two n q a
    have h1 : bitOf n q a = 1 := by omega
    rw [setBitOf_setBitOf n q a 0 1 (by omega), ← h1, setBitOf_bitOf]
  · intro a ha
    obtain ⟨-, hab⟩ := Finset.mem_filter.mp ha
    rw [setBitOf_setBitOf n q a 1 0 (by omega)]
    rw [← hab, setBitOf_bitOf]
  · intro a ha
    obtain ⟨-, hab⟩ := Finset.mem_filter.mp ha
    have hba := bitOf_lt_two n q a
    have h1 : bitOf n q a = 1 := by omega
    rw [setBitOf_setBitOf n q a 0 1 (by omega), ← h1, setBitOf_bitOf]

/-- Applying any `pairNorm` 2×2 matrix to one qubit preserves the total
squared magnitude of the state vector. -/
theorem applyMatrix_normSq (n q : ℕ) (m : Mat2) (st : ℕ → ℂ) (hq : q < n)
    (hm : pairNorm m) :
    ∑ k ∈ Finset.range (2 ^ n), Complex.normSq (applyMatrix n q m st k)
      = ∑ k ∈ Finset.range (2 ^ n), Complex.normSq (st k) := by
  rw [sum_bit_split n q hq (fun k => Complex.normSq (applyMatrix n q m st k)),
    sum_bit_split n q hq (fun k => Complex.normSq (st k))]
  apply Finset.sum_congr rfl
  intro j hj
  obtain ⟨hjr, hj0⟩ := Finset.mem_filter.mp hj
  have hjlt := Finset.mem_range.mp hjr
  have hj1lt : setBitOf n q j 1 < 2 ^ n := setBitOf_lt n q j 1 hq hjlt (by omega)
  have hsj0 : setBitOf n q j 0 = j := by
    have h := setBitOf_bitOf n q j
    rwa [hj0] at h
  have hb1 : bitOf n q (setBitOf n q j 1) = 1 := bitOf_setBitOf n q j 1 (by omega)
  have hs10 : setBitOf n q (setBitOf n q j 1) 0 = setBitOf n q j 0 :=
    setBitOf_setBitOf n q j 1 0 (by omega)
  have hs11 : setBitOf n q (setBitOf n q j 1) 1 = setBitOf n q j 1 :=
    setBitOf_setBitOf n q j 1 1 (by omega)
  rw [applyMatrix_apply n q m st hq j hjlt, applyMatrix_apply n q m st hq _ hj1lt,
    hj0, hb1, hs10, hs11, hsj0, Mat2.entry_00, Mat2.entry_01, Mat2.entry_10,
    Mat2.entry_11]
  exact hm (st j) (st (setBitOf n q j 1))

theorem neg_one_mk : ((⟨-1, 0⟩ : ℂ)) = (-1 : ℂ) := by
  apply Complex.ext <;> simp

theorem applyCZ_normSq_pointwise (n c t : ℕ) (st : ℕ → ℂ) (i : ℕ) :
    Complex.normSq (applyCZ n c t st i) = Complex.normSq (st i) := by
  simp only [applyCZ]
  split_ifs with h
  · rw [cMul_eq, neg_one_mk, Complex.normSq_mul]
    simp
  · rfl

theorem swap_fold_apply (n a b : ℕ) (st : ℕ → ℂ) (ha : a < n) (hb : b < n)
    (hab : a ≠ b) (m : ℕ) (k : ℕ) :
    ((List.range m).foldl
        (fun newState i => Function.update newState (swapIdx n a b i) (st i))
        ((fun _ => 0) : ℕ → ℂ)) k
      = if swapIdx n a b k < m then st (swapIdx n a b k) else 0 := by
  induction m with
  | zero => simp
  | succ m ih =>
    rw [List.range_succ, List.foldl_append, List.foldl_cons, List.foldl_nil]
    by_cases hk : k = swapIdx n a b m
    · rw [hk, Function.update_same, swapIdx_swapIdx n a b m ha hb hab,
        if_pos (by omega)]
    · rw [Function.update_noteq hk, ih]
      have hkm : swapIdx n a b k ≠ m := by
        intro h
        apply hk
        rw [← swapIdx_swapIdx n a b k ha hb hab, h]
      by_cases hlt : swapIdx n a b k < m
      · rw [if_pos hlt, if_pos (by omega)]
      · rw [if_neg hlt, if_neg (by omega)]

/-- Pointwise description of `applySWAP`: since `swapIdx` is an involution,
entry `k` of the new vector is the old entry at the swapped index. -/
theorem applySWAP_apply (n a b : ℕ) (st : ℕ → ℂ) (ha : a < n) (hb : b < n)
    (hab : a ≠ b) (k : ℕ) (hk : k < 2 ^ n) :
    applySWAP n a b st k = st (swapIdx n a b k) := by
  rw [applySWAP, swap_fold_apply n a b st ha hb hab (2 ^ n) k,
    if_pos (swapIdx_lt n a b k ha hb hk)]

theorem applySWAP_normSq (n a b : ℕ) (st : ℕ → ℂ) (ha : a < n) (hb : b < n)
    (hab : a ≠ b) :
    ∑ k ∈ Finset.range (2 ^ n), Complex.normSq (applySWAP n a b st k)
      = ∑ k ∈ Finset.range (2 ^ n), Complex.normSq (st k) := by
  have h1 : ∑ k ∈ Finset.range (2 ^ n), Complex.normSq (applySWAP n a b st k)
      = ∑ k ∈ Finset.range (2 ^ n), Complex.normSq (st (swapIdx n a b k)) := by
    apply Finset.sum_congr rfl
    intro k hk
    rw [applySWAP_apply n a b st ha hb hab k (Finset.mem_range.mp hk)]
  rw [h1]
  apply Finset.sum_bij' (fun k _ => swapIdx n a b k) (fun k _ => swapIdx n a b k)
  · intro x hx
    exact Finset.mem_range.mpr (swapIdx_lt n a b x ha hb (Finset.mem_range.mp hx))
  · intro x hx
    exact Finset.mem_range.mpr (swapIdx_lt n a b x ha hb (Finset.mem_range.mp hx))
  · intro x _
    exact swapIdx_swapIdx n a b x ha hb hab
  · intro x _
    exact swapIdx_swapIdx n a b x ha hb hab
  · intro x _
    rfl

theorem cnotStep_pos (n c t : ℕ) (v : ℕ → ℂ) (i : ℕ) (h : bitOf n c i = 1) (k : ℕ) :
    cnotStep n c t v i k
      = if k = flipTarget n t i then v i
        else if k = i then v (flipTarget n t i) else v k := by
  rw [cnotStep, if_pos h]

theorem cnotStep_neg (n c t : ℕ) (v : ℕ → ℂ) (i : ℕ) (h : ¬ bitOf n c i = 1) :
    cnotStep n c t v i = v := by
  rw [cnotStep, if_neg h]

theorem cond_shift (n t k m : ℕ) (hkm : k ≠ m) (hfkm : flipTarget n t k ≠ m) :
    (min k (flipTarget n t k) < m ∧ m ≤ max k (flipTarget n t k))
      ↔ (min k (flipTarget n t k) < m + 1 ∧ m + 1 ≤ max k (flipTarget n t k)) := by
  have h1 : min k (flipTarget n t k) ≠ m := by
    rcases le_total k (flipTarget n t k) with h | h
    · rw [min_eq_left h]; exact hkm
    · rw [min_eq_right h]; exact hfkm
  have h2 : max k (flipTarget n t k) ≠ m := by
    rcases le_total k (flipTarget n t k) with h | h
    · rw [max_eq_right h]; exact hfkm
    · rw [max_eq_left h]; exact hkm
  omega

/-- Invariant of the `applyCNOT` loop after `m` iterations: an entry whose
control bit is 1 holds its partner's amplitude exactly while the loop has
passed one of the pair `{k, flipTarget k}` but not yet the other; once both
are processed the two swaps have cancelled. -/
theorem cnot_fold_apply (n c t : ℕ) (st : ℕ → ℂ) (hc : c < n) (ht : t < n)
    (hct : c ≠ t) (m : ℕ) :
    m ≤ 2 ^ n → ∀ k : ℕ,
    ((List.range m).foldl (cnotStep n c t) st) k
      = if bitOf n c k = 1 ∧ k < 2 ^ n
            ∧ min k (flipTarget n t k) < m ∧ m ≤ max k (flipTarget n t k)
        then st (flipTarget n t k) else st k := by
  induction m with
  | zero =>
    intro hm k
    rw [List.range_zero, List.foldl_nil, if_neg]
    rintro ⟨-, -, h3, -⟩
    omega
  | succ m ih =>
    intro hm k
    have ihm := ih (by omega)
    rw [List.range_succ, List.foldl_append, List.foldl_cons, List.foldl_nil]
    by_cases hcm : bitOf n c m = 1
    · rw [cnotStep_pos n c t _ m hcm k]
      by_cases hkf : k = flipTarget n t m
      · rw [if_pos hkf, ihm m]
        have hfm : flipTarget n t m = k := hkf.symm
        have hflipk : flipTarget n t k = m := by rw [hkf, flipTarget_flipTarget]
        have hkm : k ≠ m := by rw [hkf]; exact flipTarget_ne n t m
        have hk2 : k < 2 ^ n := by rw [hkf]; exact flipTarget_lt n t m ht (by omega)
        have hck : bitOf n c k = 1 := by
          rw [hkf, bitOf_flipTarget_ne n c t m hc ht hct]; exact hcm
        rcases Nat.lt_or_ge m k with hmk | hmk
        · have hneg : ¬(bitOf n c m = 1 ∧ m < 2 ^ n
              ∧ min m (flipTarget n t m) < m ∧ m ≤ max m (flipTarget n t m)) := by
            rintro ⟨-, -, hmin, -⟩
            rw [hfm] at hmin
            omega
          have hpos : bitOf n c k = 1 ∧ k < 2 ^ n
              ∧ min k (flipTarget n t k) < m + 1 ∧ m + 1 ≤ max k (flipTarget n t k) :=
            ⟨hck, hk2, by rw [hflipk]; omega, by rw [hflipk]; omega⟩
          rw [if_neg hneg, if_pos hpos, hflipk]
        · have hklt : k < m := by omega
          have hpos : bitOf n c m = 1 ∧ m < 2 ^ n
              ∧ min m (flipTarget n t m) < m ∧ m ≤ max m (flipTarget n t m) :=
            ⟨hcm, by omega, by rw [hfm]; omega, by rw [hfm]; omega⟩
          have hneg : ¬(bitOf n c k = 1 ∧ k < 2 ^ n
              ∧ min k (flipTarget n t k) < m + 1 ∧ m + 1 ≤ max k (flipTarget n t k)) := by
            rintro ⟨-, -, -, hmax⟩
            rw [hflipk] at hmax
            omega
          rw [if_pos hpos, if_neg hneg, hfm]
      · by_cases hkm : k = m
        · rw [if_neg hkf, if_pos hkm, ihm (flipTarget n t m)]
          subst hkm
          have hcj : bitOf n c (flipTarget n t k) = 1 := by
            rw [bitOf_flipTarget_ne n c t k hc ht hct]; exact hcm
          have hj2 : flipTarget n t k < 2 ^ n := flipTarget_lt n t k ht (by omega)
          have hjj : flipTarget n t (flipTarget n t k) = k := flipTarget_flipTarget n t k
          have hjk : flipTarget n t k ≠ k := flipTarget_ne n t k
          rcases Nat.lt_or_ge (flipTarget n t k) k with hjm | hjm
          · have hpos : bitOf n c (flipTarget n t k) = 1 ∧ flipTarget n t k < 2 ^ n
                ∧ min (flipTarget n t k) (flipTarget n t (flipTarget n t k)) < k
                ∧ k ≤ max (flipTarget n t k) (flipTarget n t (flipTarget n t k)) :=
              ⟨hcj, hj2, by rw [hjj]; omega, by rw [hjj]; omega⟩
            have hneg : ¬(bitOf n c k = 1 ∧ k < 2 ^ n
                ∧ min k (flipTarget n t k) < k + 1 ∧ k + 1 ≤ max k (flipTarget n t k)) := by
              rintro ⟨-, -, -, hmax⟩
              omega
            rw [if_pos hpos, if_neg hneg, hjj]
          · have hkj : k < flipTarget n t k := by omega
            have hneg : ¬(bitOf n c (flipTarget n t k) = 1 ∧ flipTarget n t k < 2 ^ n
                ∧ min (flipTarget n t k) (flipTarget n t (flipTarget n t k)) < k
                ∧ k ≤ max (flipTarget n t k) (flipTarget n t (flipTarget n t k))) := by
              rintro ⟨-, -, hmin, -⟩
              rw [hjj] at hmin
              omega
            have hpos : bitOf n c k = 1 ∧ k < 2 ^ n
                ∧ min k (flipTarget n t k) < k + 1 ∧ k + 1 ≤ max k (flipTarget n t k) :=
              ⟨hcm, by omega, by omega, by omega⟩
            rw [if_neg hneg, if_pos hpos]
        · rw [if_neg hkf, if_neg hkm, ihm k]
          have hfkm : flipTarget n t k ≠ m := fun h => hkf (by rw [← h, flipTarget_flipTarget])
          apply if_congr _ rfl rfl
          constructor
          · rintro ⟨a1, a2, a3, a4⟩
            have h := (cond_shift n t k m hkm hfkm).mp ⟨a3, a4⟩
            exact ⟨a1, a2, h.1, h.2⟩
          · rintro ⟨a1, a2, a3, a4⟩
            have h := (cond_shift n t k m hkm hfkm).mpr ⟨a3, a4⟩
            exact ⟨a1, a2, h.1, h.2⟩
    · rw [cnotStep_neg n c t _ m hcm, ihm k]
      by_cases hck : bitOf n c k = 1
      · have hcfk : bitOf n c (flipTarget n t k) = 1 := by
          rw [bitOf_flipTarget_ne n c t k hc ht hct]; exact hck
        have hkm : k ≠ m := fun h => hcm (h ▸ hck)
        have hfkm : flipTarget n t k ≠ m := fun h => hcm (h ▸ hcfk)
        apply if_congr _ rfl rfl
        constructor
        · rintro ⟨a1, a2, a3, a4⟩
          have h := (cond_shift n t k m hkm hfkm).mp ⟨a3, a4⟩
          exact ⟨a1, a2, h.1, h.2⟩
        · rintro ⟨a1, a2, a3, a4⟩
          have h := (cond_shift n t k m hkm hfkm).mpr ⟨a3, a4⟩
          exact ⟨a1, a2, h.1, h.2⟩
      · rw [if_neg (fun h => hck h.1), if_neg (fun h => hck h.1)]

/-- The source's CNOT loop is the identity on the state: each amplitude pair
with control bit 1 is swapped once when the loop reaches its smaller index and
swapped back when it reaches the larger one. -/
theorem applyCNOT_eq_self (n c t : ℕ) (st : ℕ → ℂ) (hc : c < n) (ht : t < n)
    (hct : c ≠ t) : applyCNOT n c t st = st := by
  funext k
  rw [applyCNOT, cnot_fold_apply n c t st hc ht hct (2 ^ n) le_rfl k, if_neg]
  rintro ⟨-, hk2, -, hmax⟩
  have h1 := flipTarget_lt n t k ht hk2
  have h2 : max k (flipTarget n t k) < 2 ^ n := max_lt hk2 h1
  omega

theorem applySingleQubitGate_H (n q : ℕ) (p : Option ℝ) (st : ℕ → ℂ) :
    applySingleQubitGate n "H" q p st = .ok (applyMatrix n q Hmat st) := rfl

theorem applySingleQubitGate_X (n q : ℕ) (p : Option ℝ) (st : ℕ → ℂ) :
    applySingleQubitGate n "X" q p st = .ok (applyMatrix n q Xmat st) := rfl

theorem applySingleQubitGate_Y (n q : ℕ) (p : Option ℝ) (st : ℕ → ℂ) :
    applySingleQubitGate n "Y" q p st = .ok (applyMatrix n q Ymat st) := rfl

theorem applySingleQubitGate_Z (n q : ℕ) (p : Option ℝ) (st : ℕ → ℂ) :
    applySingleQubitGate n "Z" q p st = .ok (applyMatrix n q Zmat st) := rfl

theorem applySingleQubitGate_S (n q : ℕ) (p : Option ℝ) (st : ℕ → ℂ) :
    applySingleQubitGate n "S" q p st = .ok (applyMatrix n q Smat st) := rfl

theorem applySingleQubitGate_T (n q : ℕ) (p : Option ℝ) (st : ℕ → ℂ) :
    applySingleQubitGate n "T" q p st = .ok (applyMatrix n q Tmat st) := rfl

theorem applySingleQubitGate_RX (n q : ℕ) (p : Option ℝ) (st : ℕ → ℂ) :
    applySingleQubitGate n "RX" q p st = .ok (applyMatrix n q (RXmat (p.getD 0)) st) := rfl

theorem applySingleQubitGate_RY (n q : ℕ) (p : Option ℝ) (st : ℕ → ℂ) :
    applySingleQubitGate n "RY" q p st = .ok (applyMatrix n q (RYmat (p.getD 0)) st) := rfl

theorem applySingleQubitGate_RZ (n q : ℕ) (p : Option ℝ) (st : ℕ → ℂ) :
    applySingleQubitGate n "RZ" q p st = .ok (applyMatrix n q (RZmat (p.getD 0)) st) := rfl

theorem list_range_map_sum (N : ℕ) (f : ℕ → ℝ) :
    ((List.range N).map f).sum = ∑ i ∈ Finset.range N, f i := by
  induction N with
  | zero => simp
  | succ N ih =>
    rw [List.range_succ, List.map_append, List.sum_append, Finset.sum_range_succ, ih]
    simp

theorem getProbabilities_sum (n : ℕ) (st : ℕ → ℂ) :
    (getProbabilities n st).sum = ∑ k ∈ Finset.range (2 ^ n), Complex.normSq (st k) := by
  rw [getProbabilities, list_range_map_sum]
  exact Finset.sum_congr rfl fun k _ => magnitudeJS_mul_self (st k)

/-- A gate operation that is a valid call of the claimed kind: a supported
unitary gate acting on in-range, distinct qubits. -/
def validOp (n : ℕ) (op : GateOp) : Bool :=
  match op.gate with
  | "H" | "X" | "Y" | "Z" | "S" | "T" | "RX" | "RY" | "RZ" => decide (op.qubit < n)
  | "CNOT" | "CZ" | "SWAP" =>
    decide (op.qubit < n) && decide (op.targetQubit < n)
      && decide (op.qubit ≠ op.targetQubit)
  | _ => false

theorem applyGate_norm (n : ℕ) (op : GateOp) (st : ℕ → ℂ)
    (h : validOp n op = true) :
    ∃ st', applyGate n op st = .ok st'
      ∧ ∑ k ∈ Finset.range (2 ^ n), Complex.normSq (st' k)
        = ∑ k ∈ Finset.range (2 ^ n), Complex.normSq (st k) := by
  rcases op with ⟨g, q, tq, p⟩
  unfold validOp at h
  split at h
  · rename_i x heq
    have hg : g = "H" := heq
    subst hg
    exact ⟨applyMatrix n q Hmat st, rfl,
      applyMatrix_normSq n q Hmat st (of_decide_eq_true h) pairNorm_H⟩
  · rename_i x heq
    have hg : g = "X" := heq
    subst hg
    exact ⟨applyMatrix n q Xmat st, rfl,
      applyMatrix_normSq n q Xmat st (of_decide_eq_true h) pairNorm_X⟩
  · rename_i x heq
    have hg : g = "Y" := heq
    subst hg
    exact ⟨applyMatrix n q Ymat st, rfl,
      applyMatrix_normSq n q Ymat st (of_decide_eq_true h) pairNorm_Y⟩
  · rename_i x heq
    have hg : g = "Z" := heq
    subst hg
    exact ⟨applyMatrix n q Zmat st, rfl,
      applyMatrix_normSq n q Zmat st (of_decide_eq_true h) pairNorm_Z⟩
  · rename_i x heq
    have hg : g = "S" := heq
    subst hg
    exact ⟨applyMatrix n q Smat st, rfl,
      applyMatrix_normSq n q Smat st (of_decide_eq_true h) pairNorm_S⟩
  · rename_i x heq
    have hg : g = "T" := heq
    subst hg
    exact ⟨applyMatrix n q Tmat st, rfl,
      applyMatrix_normSq n q Tmat st (of_decide_eq_true h) pairNorm_T⟩
  · rename_i x heq
    have hg : g = "RX" := heq
    subst hg
    exact ⟨applyMatrix n q (RXmat (p.getD 0)) st, rfl,
      applyMatrix_normSq n q _ st (of_decide_eq_true h) (pairNorm_RX _)⟩
  · rename_i x heq
    have hg : g = "RY" := heq
    subst hg
    exact ⟨applyMatrix n q (RYmat (p.getD 0)) st, rfl,
      applyMatrix_normSq n q _ st (of_decide_eq_true h) (pairNorm_RY _)⟩
  · rename_i x heq
    have hg : g = "RZ" := heq
    subst hg
    exact ⟨applyMatrix n q (RZmat (p.getD 0)) st, rfl,
      applyMatrix_normSq n q _ st (of_decide_eq_true h) (pairNorm_RZ _)⟩
  · rename_i x heq
    have hg : g = "CNOT" := heq
    subst hg
    simp only [Bool.and_eq_true, decide_eq_true_eq] at h
    exact ⟨applyCNOT n q tq st, rfl,
      by rw [applyCNOT_eq_self n q tq st h.1.1 h.1.2 h.2]⟩
  · rename_i x heq
    have hg : g = "CZ" := heq
    subst hg
    exact ⟨applyCZ n q tq st, rfl,
      Finset.sum_congr rfl fun k _ => applyCZ_normSq_pointwise n q tq st k⟩
  · rename_i x heq
    have hg : g = "SWAP" := heq
    subst hg
    simp only [Bool.and_eq_true, decide_eq_true_eq] at h
    exact ⟨applySWAP n q tq st, rfl, applySWAP_normSq n q tq st h.1.1 h.1.2 h.2⟩
  · exact absurd h (by simp)

theorem runOps_norm (n : ℕ) (ops : List GateOp) (st : ℕ → ℂ)
    (h : ∀ op ∈ ops, validOp n op = true) :
    ∃ st', runOps n ops st = .ok st'
      ∧ ∑ k ∈ Finset.range (2 ^ n), Complex.normSq (st' k)
        = ∑ k ∈ Finset.range (2 ^ n), Complex.normSq (st k) := by
  induction ops generalizing st with
  | nil => exact ⟨st, rfl, rfl⟩
  | cons op rest ih =>
    obtain ⟨st1, hst1, hn1⟩ := applyGate_norm n op st (h op (by simp))
    obtain ⟨st2, hst2, hn2⟩ := ih st1 (fun o ho => h o (by simp [ho]))
    refine ⟨st2, ?_, by rw [hn2, hn1]⟩
    rw [runOps, List.foldlM_cons, hst1]
    exact hst2

theorem reset_normSq (n : ℕ) :
    ∑ k ∈ Finset.range (2 ^ n), Complex.normSq (reset n k) = 1 := by
  rw [Finset.sum_eq_single 0]
  · simp [reset]
  · intro b _ hb0
    simp [reset, hb0]
  · intro h0
    exact absurd (Finset.mem_range.mpr (two_pow_pos n)) h0

/-- C1: norm preservation — for every qubit count, every sequence of valid
supported gate applications (single-qubit H/X/Y/Z/S/T/RX/RY/RZ on an in-range
qubit, CNOT/CZ/SWAP on in-range distinct qubits) starting from the reset state
`|0...0⟩`, and every prefix of the sequence (i.e. after every gate
application), the replay succeeds and the sum over all `2^n` basis indices of
the squared amplitude magnitudes equals 1 exactly (over exact reals). -/
theorem norm_preservation (n : ℕ) (ops : List GateOp)
    (h : ∀ op ∈ ops, validOp n op = true) (j : ℕ) :
    ∃ st', runOps n (ops.take j) (reset n) = .ok st'
      ∧ (getProbabilities n st').sum = 1 := by
  obtain ⟨st', h1, h2⟩ := runOps_norm n (ops.take j) (reset n)
    (fun op ho => h op (List.take_subset j ops ho))
  exact ⟨st', h1, by rw [getProbabilities_sum, h2, reset_normSq]⟩

/-- C1 witness: the two-gate Bell circuit `H(0); CNOT(0,1)` on two qubits is
valid, and after both gates the probabilities sum to 1. -/
theorem norm_preservation_witness :
    ∃ st', runOps 2 (([⟨"H", 0, 0, none⟩, ⟨"CNOT", 0, 1, none⟩] : List GateOp).take 2)
        (reset 2) = .ok st'
      ∧ (getProbabilities 2 st').sum = 1 :=
  norm_preservation 2 [⟨"H", 0, 0, none⟩, ⟨"CNOT", 0, 1, none⟩] (by decide) 2

/-- C2: evaluating the code on the Bell-state circuit — `H(0)` then
`CNOT(0,1)` on two qubits starting from `|00⟩` — yields amplitudes `1/√2` at
indices 0 (`|00⟩`) and 2 (`|10⟩`) and `0` at indices 1 and 3.  The claim
requires `1/√2` at indices 0 and 3 and `0` at 1 and 2; it fails because the
`applyCNOT` loop swaps every amplitude pair twice (once at each member of the
pair), so the CNOT is a no-op on the state. -/
theorem bell_construction_fails :
    ∃ st', runOps 2 [⟨"H", 0, 0, none⟩, ⟨"CNOT", 0, 1, none⟩] (reset 2) = .ok st'
      ∧ st' 0 = ((1 / Real.sqrt 2 : ℝ) : ℂ) ∧ st' 1 = 0
      ∧ st' 2 = ((1 / Real.sqrt 2 : ℝ) : ℂ) ∧ st' 3 = 0 := by
  refine ⟨applyCNOT 2 0 1 (applyMatrix 2 0 Hmat (reset 2)), rfl, ?_⟩
  rw [applyCNOT_eq_self 2 0 1 _ (by norm_num) (by norm_num) (by norm_num)]
  refine ⟨?_, ?_, ?_, ?_⟩
  · rw [applyMatrix_apply 2 0 Hmat (reset 2) (by norm_num) 0 (by norm_num)]
    norm_num [bitOf, bitAt, setBitOf, setAt, Mat2.entry, reset, Hmat]
  · rw [applyMatrix_apply 2 0 Hmat (reset 2) (by norm_num) 1 (by norm_num)]
    norm_num [bitOf, bitAt, setBitOf, setAt, Mat2.entry, reset, Hmat]
  · rw [applyMatrix_apply 2 0 Hmat (reset 2) (by norm_num) 2 (by norm_num)]
    norm_num [bitOf, bitAt, setBitOf, setAt, Mat2.entry, reset, Hmat]
  · rw [applyMatrix_apply 2 0 Hmat (reset 2) (by norm_num) 3 (by norm_num)]
    norm_num [bitOf, bitAt, setBitOf, setAt, Mat2.entry, reset, Hmat]

/-- C5 counterexample: `applySingleQubitGate('RX', 0, {})` — a rotation gate
call whose params lack `theta` — does not fail on the reset 1-qubit state:
no error is reported to the caller, contradicting the claim that such a call
is fatal. -/
theorem rx_missing_theta_not_error :
    ¬ ∃ e, applySingleQubitGate 1 "RX" 0 none (reset 1) = .error e := by
  rintro ⟨e, he⟩
  rw [applySingleQubitGate_RX] at he
  exact Except.noConfusion he

/-- C5 amended: a rotation-gate application whose params record lacks `theta`
does not fail; the code substitutes `theta = 0` (JS `params.theta || 0`), and
the resulting angle-0 rotation leaves every amplitude unchanged. -/
theorem rotation_missing_theta (n q : ℕ) (g : String)
    (hg : g = "RX" ∨ g = "RY" ∨ g = "RZ") (hq : q < n) (st : ℕ → ℂ) :
    ∃ st', applySingleQubitGate n g q none st = .ok st'
      ∧ ∀ k, k < 2 ^ n → st' k = st k := by
  have hid : ∀ m : Mat2, m.e00 = 1 → m.e01 = 0 → m.e10 = 0 → m.e11 = 1 →
      ∀ k, k < 2 ^ n → applyMatrix n q m st k = st k := by
    intro m h00 h01 h10 h11 k hk
    rw [applyMatrix_apply n q m st hq k hk]
    have hb := bitOf_lt_two n q k
    rcases (by omega : bitOf n q k = 0 ∨ bitOf n q k = 1) with h | h
    · rw [h, Mat2.entry_00, Mat2.entry_01, h00, h01, one_mul, zero_mul, add_zero]
      have hs := setBitOf_bitOf n q k
      rw [h] at hs
      rw [hs]
    · rw [h, Mat2.entry_10, Mat2.entry_11, h10, h11, one_mul, zero_mul, zero_add]
      have hs := setBitOf_bitOf n q k
      rw [h] at hs
      rw [hs]
  rcases hg with h | h | h <;> subst h
  · exact ⟨_, applySingleQubitGate_RX n q none st,
      hid _ (by simp [RXmat])
        (by apply Complex.ext <;> simp [RXmat])
        (by apply Complex.ext <;> simp [RXmat])
        (by simp [RXmat])⟩
  · exact ⟨_, applySingleQubitGate_RY n q none st,
      hid _ (by simp [RYmat])
        (by apply Complex.ext <;> simp [RYmat])
        (by apply Complex.ext <;> simp [RYmat])
        (by simp [RYmat])⟩
  · exact ⟨_, applySingleQubitGate_RZ n q none st,
      hid _ (by apply Complex.ext <;> simp [RZmat])
        (by simp [RZmat])
        (by simp [RZmat])
        (by apply Complex.ext <;> simp [RZmat])⟩

/-- C5 witness: the amended behaviour at the concrete input of the
counterexample — `RX` with missing `theta` on one qubit succeeds and leaves
the reset state unchanged. -/
theorem rotation_missing_theta_witness :
    ∃ st', applySingleQubitGate 1 "RX" 0 none (reset 1) = .ok st'
      ∧ ∀ k, k < 2 ^ 1 → st' k = reset 1 k :=
  rotation_missing_theta 1 0 "RX" (Or.inl rfl) (by norm_num) (reset 1)

/-- C6: a gate kind that is not one of the supported kinds is rejected with an
error by both `applySingleQubitGate` (unknown `GATES` key) and the `applyGate`
dispatch (default branch); no substitute matrix is applied. -/
theorem unknown_gate_rejected (n q tq : ℕ) (p : Option ℝ) (st : ℕ → ℂ)
    (g : String) (hg : g ∉ supportedGateNames) :
    (∃ e, applySingleQubitGate n g q p st = .error e)
      ∧ ∃ e, applyGate n ⟨g, q, tq, p⟩ st = .error e := by
  have hty : GATES_type g = none := by
    unfold GATES_type
    split
    all_goals first
      | rfl
      | exact absurd (by decide) hg
  constructor
  · refine ⟨"Unknown gate: " ++ g, ?_⟩
    unfold applySingleQubitGate
    rw [hty]
  · refine ⟨"Unknown gate: " ++ g, ?_⟩
    unfold applyGate
    split
    all_goals first
      | rfl
      | (rename_i heq
         have hgeq : g = _ := heq
         subst hgeq
         exact absurd (by decide) hg)

/-- C6 witness: the unsupported kind `"FOO"` is rejected by both paths. -/
theorem unknown_gate_rejected_witness :
    (("FOO" : String) ∉ supportedGateNames)
      ∧ ((∃ e, applySingleQubitGate 1 "FOO" 0 none (reset 1) = .error e)
        ∧ ∃ e, applyGate 1 ⟨"FOO", 0, 0, none⟩ (reset 1) = .error e) :=
  ⟨by decide, unknown_gate_rejected 1 0 0 none (reset 1) "FOO" (by decide)⟩

/-- C7: SWAP involution — applying `applySWAP(a, b)` twice in succession, for
distinct in-range qubits, returns every amplitude of the state vector exactly
to its pre-swap value. -/
theorem applySWAP_involution (n a b : ℕ) (ha : a < n) (hb : b < n) (hab : a ≠ b)
    (st : ℕ → ℂ) (k : ℕ) (hk : k < 2 ^ n) :
    applySWAP n a b (applySWAP n a b st) k = st k := by
  rw [applySWAP_apply n a b _ ha hb hab k hk,
    applySWAP_apply n a b st ha hb hab _ (swapIdx_lt n a b k ha hb hk),
    swapIdx_swapIdx n a b k ha hb hab]

/-- C7 witness: double SWAP(0,1) on the reset 2-qubit state restores entry 0. -/
theorem applySWAP_involution_witness :
    applySWAP 2 0 1 (applySWAP 2 0 1 (reset 2)) 0 = reset 2 0 :=
  applySWAP_involution 2 0 1 (by norm_num) (by norm_num) (by norm_num) (reset 2) 0
    (by norm_num)

/-- C8: RZ is diagonal with unit-magnitude entries, so applying
`applySingleQubitGate('RZ', 0, {theta})` to the freshly reset state leaves the
probability distribution returned by `getProbabilities` unchanged, for every
angle. -/
theorem rz_preserves_probabilities (n : ℕ) (θ : ℝ) (hn : 0 < n) :
    ∃ st', applySingleQubitGate n "RZ" 0 (some θ) (reset n) = .ok st'
      ∧ getProbabilities n st' = getProbabilities n (reset n) := by
  refine ⟨applyMatrix n 0 (RZmat θ) (reset n), rfl, ?_⟩
  rw [getProbabilities, getProbabilities]
  apply List.map_congr_left
  intro i hi
  have hilt : i < 2 ^ n := List.mem_range.mp hi
  rw [magnitudeJS_mul_self, magnitudeJS_mul_self,
    applyMatrix_apply n 0 (RZmat θ) (reset n) hn i hilt]
  have hb := bitOf_lt_two n 0 i
  have hcs : Real.cos (θ / 2) * Real.cos (θ / 2)
      + Real.sin (θ / 2) * Real.sin (θ / 2) = 1 := by
    nlinarith [Real.sin_sq_add_cos_sq (θ / 2)]
  rcases (by omega : bitOf n 0 i = 0 ∨ bitOf n 0 i = 1) with h | h
  · have hs := setBitOf_bitOf n 0 i
    rw [h] at hs
    rw [h, Mat2.entry_00, Mat2.entry_01, hs]
    have h01 : (RZmat θ).e01 = 0 := rfl
    rw [h01, zero_mul, add_zero, Complex.normSq_mul]
    have he : Complex.normSq (RZmat θ).e00 = 1 := by
      show Complex.normSq ⟨Real.cos (θ / 2), -Real.sin (θ / 2)⟩ = 1
      rw [Complex.normSq_mk]
      nlinarith [hcs]
    rw [he, one_mul]
  · have hs := setBitOf_bitOf n 0 i
    rw [h] at hs
    rw [h, Mat2.entry_10, Mat2.entry_11, hs]
    have h10 : (RZmat θ).e10 = 0 := rfl
    rw [h10, zero_mul, zero_add, Complex.normSq_mul]
    have he : Complex.normSq (RZmat θ).e11 = 1 := by
      show Complex.normSq ⟨Real.cos (θ / 2), Real.sin (θ / 2)⟩ = 1
      rw [Complex.normSq_mk]
      nlinarith [hcs]
    rw [he, one_mul]

/-- C8 witness: RZ(0) on a freshly reset single qubit keeps the distribution. -/
theorem rz_preserves_probabilities_witness :
    ∃ st', applySingleQubitGate 1 "RZ" 0 (some 0) (reset 1) = .ok st'
      ∧ getProbabilities 1 st' = getProbabilities 1 (reset 1) :=
  rz_preserves_probabilities 1 0 (by norm_num)

/-- C9: a measurement-marker operation (`'M'`) dispatched through `applyGate`
returns the state vector itself unchanged and unmodified — no collapse and no
randomness at simulate time. -/
theorem measurement_noop (n q tq : ℕ) (p : Option ℝ) (st : ℕ → ℂ) :
    applyGate n ⟨"M", q, tq, p⟩ st = .ok st := rfl

/-- C10: `applyCZ` is symmetric in its control/target arguments — the phase is
applied exactly where both bits are 1, a symmetric condition. -/
theorem applyCZ_symm (n c t : ℕ) (hc : c < n) (ht : t < n) (st : ℕ → ℂ) :
    applyCZ n c t st = applyCZ n t c st :=
  funext fun i => if_congr and_comm rfl rfl

/-- C10 witness: CZ(0,1) and CZ(1,0) agree on the reset 2-qubit state. -/
theorem applyCZ_symm_witness :
    applyCZ 2 0 1 (reset 2) = applyCZ 2 1 0 (reset 2) :=
  applyCZ_symm 2 0 1 (by norm_num) (by norm_num) (reset 2)

theorem measureLoop_none (l : List ℝ) (r : ℝ) :
    ∀ (c : ℝ) (idx : ℕ),
    (∀ j, j < l.length → ¬ r ≤ c + (l.take (j + 1)).sum) →
    measureLoop l r c idx = none := by
  induction l with
  | nil => intro c idx _; rfl
  | cons p rest ih =>
    intro c idx h
    rw [measureLoop, if_neg]
    · apply ih
      intro j hj hcon
      apply h (j + 1) (by simp; omega)
      rw [List.take_succ_cons, List.sum_cons]
      linarith
    · have h0 := h 0 (by simp)
      rw [List.take_succ_cons, List.take_zero, List.sum_cons, List.sum_nil,
        add_zero] at h0
      exact h0

theorem measureLoop_found (l : List ℝ) (r : ℝ) :
    ∀ (c : ℝ) (idx : ℕ) (j : ℕ),
    j < l.length → r ≤ c + (l.take (j + 1)).sum →
    (∀ j', j' < j → ¬ r ≤ c + (l.take (j' + 1)).sum) →
    measureLoop l r c idx = some (idx + j) := by
  induction l with
  | nil => intro c idx j hj; simp at hj
  | cons p rest ih =>
    intro c idx j hj hle hmin
    rw [measureLoop]
    rcases Nat.eq_zero_or_pos j with h0 | h0
    · subst h0
      rw [if_pos, Nat.add_zero]
      rw [List.take_succ_cons, List.take_zero, List.sum_cons, List.sum_nil,
        add_zero] at hle
      exact hle
    · obtain ⟨j', rfl⟩ : ∃ j', j = j' + 1 := ⟨j - 1, by omega⟩
      rw [if_neg]
      · have hle' : r ≤ (c + p) + (rest.take (j' + 1)).sum := by
          rw [List.take_succ_cons, List.sum_cons] at hle
          linarith
        have hmin' : ∀ i', i' < j' → ¬ r ≤ (c + p) + (rest.take (i' + 1)).sum := by
          intro i' hi' hcon
          apply hmin (i' + 1) (by omega)
          rw [List.take_succ_cons, List.sum_cons]
          linarith
        have harr : idx + 1 + j' = idx + (j' + 1) := by omega
        rw [← harr]
        exact ih (c + p) (idx + 1) j' (by simp at hj; omega) hle' hmin'
      · have h0 := hmin 0 (by omega)
        rw [List.take_succ_cons, List.take_zero, List.sum_cons, List.sum_nil,
          add_zero] at h0
        exact h0

/-- C4 (amended): the single-sample measurement returns the fixed-width binary
string of the first index whose cumulative probability mass is `≥ r`; and when
`r` exceeds the final cumulative sum, the fallback returns the all-zeros
string — the string of index 0, not of the last index `2^n − 1`. -/
theorem measure_characterization (n : ℕ) (st : ℕ → ℂ) (r : ℝ) :
    (∀ i, i < 2 ^ n → r ≤ ((getProbabilities n st).take (i + 1)).sum →
      (∀ j, j < i → ¬ r ≤ ((getProbabilities n st).take (j + 1)).sum) →
      measure n st r = toBits n i)
    ∧ ((∀ i, i < 2 ^ n → ¬ r ≤ ((getProbabilities n st).take (i + 1)).sum) →
      measure n st r = List.replicate n 0) := by
  have hlen : (getProbabilities n st).length = 2 ^ n := by
    rw [getProbabilities, List.length_map, List.length_range]
  constructor
  · intro i hi hle hmin
    have hfound : measureLoop (getProbabilities n st) r 0 0 = some i := by
      have h := measureLoop_found (getProbabilities n st) r 0 0 i
        (by rwa [hlen]) (by rwa [zero_add]) (fun j hj => by rw [zero_add]; exact hmin j hj)
      rwa [Nat.zero_add] at h
    rw [measure, hfound]
  · intro hnone
    have h := measureLoop_none (getProbabilities n st) r 0 0
      (fun j hj => by rw [zero_add]; exact hnone j (by rwa [hlen] at hj))
    rw [measure, h]

/-- C4 counterexample: on the all-zero state vector (a state vector on which
the cumulative sum stays 0) with `r = 1/2`, the loop falls through and the
code returns the all-zeros string `[0]` — not the string `[1]` of the last
index `2^1 − 1` that the claim requires. -/
theorem measure_fallback_not_last :
    measure 1 (fun _ => 0) (1 / 2) = [0]
      ∧ toBits 1 (2 ^ 1 - 1) = [1]
      ∧ ([0] : List ℕ) ≠ [1] := by
  refine ⟨?_, by decide, by decide⟩
  have hp : getProbabilities 1 (fun _ => (0 : ℂ)) = [0, 0] := by
    rw [getProbabilities]
    norm_num [List.range_succ, magnitudeJS]
  rw [measure, hp, measureLoop, if_neg (by norm_num), measureLoop,
    if_neg (by norm_num), measureLoop]
  rfl

/-- C4 witness: on the reset single-qubit state with `r = 1/2`, index 0 is the
first index whose cumulative mass reaches `r`, and the sample is its string. -/
theorem measure_characterization_witness :
    measure 1 (reset 1) (1 / 2) = toBits 1 0 := by
  apply (measure_characterization 1 (reset 1) (1 / 2)).1 0 (by norm_num)
  · have h1 : ((getProbabilities 1 (reset 1)).take (0 + 1)).sum = 1 := by
      rw [getProbabilities]
      norm_num [List.range_succ, reset, magnitudeJS, Real.sqrt_one]
    rw [h1]
    norm_num
  · intro j hj
    omega

/-- C3 evaluation at the failing input: `applyCZ(0, 2)` on a 2-qubit simulator
in state `|11⟩` — target qubit index 2 is out of range — runs to completion
with no error path at all and applies no phase: the JS shift count
`n - 1 - t = -1` wraps to 31, so the target-bit test reads bit 31, which is 0
for every index of the array.  The claim requires the call to fail with an
error; the code has no bounds check. -/
theorem out_of_range_cz_silently_ignored :
    applyCZjs 2 0 2 (fun i => if i = 3 then 1 else 0)
      = fun i => if i = 3 then (1 : ℂ) else 0 := by
  funext i
  simp only [applyCZjs]
  by_cases h3 : i = 3
  · subst h3
    rw [if_neg]
    rintro ⟨-, h2⟩
    exact absurd h2 (by decide)
  · rw [if_neg h3]
    split_ifs with h
    · apply Complex.ext <;> simp [cMul]
    · rfl

end QSim
